import Mathlib

/-!
# Verification of the git-store repository cache

A shallow embedding of the core of `pusher/git-store` (Go) together with
proofs about it.  The embedding covers:

* `ref.go` — URL classification: the Go `regexp` pattern `gitRegex` is
  embedded as a backtracking matcher with leftmost-first (Perl-priority)
  semantics, which is what Go's `regexp` package produces for
  `FindStringSubmatch`; `validGitURL`, `getRepoTypeAndUser` and
  `parseUserPassFromMatches` are transliterated on top of it.
* `store.go` / `cloner.go` — the repository cache (`RepoStore.GetAsync`,
  `RepoStore.Get`) in its two source variants, plus a two-thread
  interleaving model of `GetAsync` used to analyse the single-flight
  property.
* `repo.go` — the snapshot surface (`cleanNewRepo`, `CheckoutContext`,
  `parseReference`, the read-only queries, `FileLog`), on a state model of
  the go-git collaborator whose primitives are modelled from §6 of the
  design document (clone/fetch/checkout/resolveRevision/blame are external
  to this repository).
-/

/-! ## Part A: the regex engine

Go's `regexp` package implements RE2 with Perl submatch semantics: the
match is the leftmost one, and among matches starting at the same
position the one found first by a priority-respecting backtracking search
(alternatives tried left to right, greedy operators prefer consuming,
lazy operators prefer not consuming).  We embed exactly that search.
Captured groups hold the last text matched by the group on the successful
path; groups that did not participate report the empty string, which is
what `FindStringSubmatch` yields for them. -/

/-- Capture environment: group index to captured text (default empty,
matching Go's `FindStringSubmatch` behaviour for non-participating
groups). -/
def Caps := Nat → List Char

/-- The empty capture environment. -/
def Caps.empty : Caps := fun _ => []

/-- Record the text of one capture group. -/
def Caps.set (cs : Caps) (n : Nat) (s : List Char) : Caps :=
  fun m => if m = n then s else cs m

/-- Success continuation of the matcher: receives the remaining input and
the captures accumulated so far. -/
abbrev MK := List Char → Caps → Option (List Char × Caps)

/-- First-success choice, evaluated lazily in the second argument: this is
the priority order of a backtracking engine. -/
def oOr (a : Option (List Char × Caps)) (b : Unit → Option (List Char × Caps)) :
    Option (List Char × Caps) :=
  match a with
  | some x => some x
  | none => b ()

/-- Syntax of the regular-expression fragment used by `gitRegex`:
literals, single-character classes, sequencing, prioritized alternation,
greedy option, greedy and lazy plus over a character class, and numbered
capture groups. -/
inductive Re where
  | eps : Re
  | lit : List Char → Re
  | cls : (Char → Bool) → Re
  | seq : Re → Re → Re
  | alt : Re → Re → Re
  | opt : Re → Re
  | many1G : (Char → Bool) → Re
  | many1L : (Char → Bool) → Re
  | group : Nat → Re → Re

/-- Greedy Kleene star over a character class: prefer consuming another
class character, fall back to the continuation. -/
def manyG (cl : Char → Bool) : List Char → Caps → MK → Option (List Char × Caps)
  | [], caps, k => k [] caps
  | c :: rest, caps, k =>
    if cl c then oOr (manyG cl rest caps k) (fun _ => k (c :: rest) caps)
    else k (c :: rest) caps

/-- Lazy Kleene star over a character class: prefer the continuation, fall
back to consuming another class character. -/
def manyL (cl : Char → Bool) : List Char → Caps → MK → Option (List Char × Caps)
  | [], caps, k => k [] caps
  | c :: rest, caps, k =>
    oOr (k (c :: rest) caps)
      (fun _ => if cl c then manyL cl rest caps k else none)

/-- The backtracking matcher in continuation-passing style.  `run e inp
caps k` tries to match `e` against a prefix of `inp`; on success the
continuation decides whether the whole attempt succeeds, and failure
backtracks into the remaining lower-priority choices. -/
def run : Re → List Char → Caps → MK → Option (List Char × Caps)
  | .eps, inp, caps, k => k inp caps
  | .lit s, inp, caps, k =>
    if s.isPrefixOf inp then k (inp.drop s.length) caps else none
  | .cls cl, inp, caps, k =>
    match inp with
    | [] => none
    | c :: rest => if cl c then k rest caps else none
  | .seq a b, inp, caps, k =>
    run a inp caps (fun rem caps' => run b rem caps' k)
  | .alt a b, inp, caps, k =>
    oOr (run a inp caps k) (fun _ => run b inp caps k)
  | .opt a, inp, caps, k =>
    oOr (run a inp caps k) (fun _ => k inp caps)
  | .many1G cl, inp, caps, k =>
    match inp with
    | [] => none
    | c :: rest => if cl c then manyG cl rest caps k else none
  | .many1L cl, inp, caps, k =>
    match inp with
    | [] => none
    | c :: rest => if cl c then manyL cl rest caps k else none
  | .group n a, inp, caps, k =>
    run a inp caps
      (fun rem caps' => k rem (caps'.set n (inp.take (inp.length - rem.length))))

/-- Attempt a match anchored at the current position; on success report
the remaining input and the captures. -/
def findAt (e : Re) (inp : List Char) : Option (List Char × Caps) :=
  run e inp Caps.empty (fun rem caps => some (rem, caps))

/-- Unanchored leftmost search, as Go's `FindStringSubmatch` performs it:
try each start offset from the left, first success wins.  Returns the
window (input from the match start), the input remaining after the match,
and the captures. -/
def findSub (e : Re) : List Char → Option (List Char × List Char × Caps)
  | [] =>
    match findAt e [] with
    | some (rem, caps) => some ([], rem, caps)
    | none => none
  | c :: rest =>
    match findAt e (c :: rest) with
    | some (rem, caps) => some (c :: rest, rem, caps)
    | none => findSub e rest

/-- Continuation transport under right extension of the input: whatever
the continuation accepts, its primed counterpart accepts with the
extension appended to the remaining input.  This is the induction
hypothesis shape of the matcher-extension lemmas below. -/
def KExt (q : List Char) (k k' : MK) : Prop :=
  ∀ rem caps2, (k rem caps2).isSome = true → (k' (rem ++ q) caps2).isSome = true

/-! ## The gitRegex pattern

Source (`ref.go` line 33):

`((git|ssh|file|rsync|http(s)?)|((\w+[\:\w]+?@)?[\w\.]+))(:(//)?)(\w+[\:\w]+?@)?([\w\.\:/\-~]+)(\.git)?(/)?`

Group numbering as Go assigns it: 1 the scheme-or-host head, 2 the scheme
token, 3 the optional `s` of `https`, 4 the bare-host head, 5 the
`user[:pass]@` fragment inside it, 6 the `:` / `://` separator, 7 the
optional `//`, 8 the `user[:pass]@` fragment after the separator, 9 the
host/path tail, 10 the optional `.git`, 11 the optional trailing `/`.
`FindStringSubmatch` therefore yields 12 strings. -/

/-- Go's `\w`: ASCII word character. -/
def wordChar (c : Char) : Bool :=
  ('a' ≤ c && c ≤ 'z') || ('A' ≤ c && c ≤ 'Z') || ('0' ≤ c && c ≤ '9') || c = '_'

/-- Character class `[\:\w]`. -/
def colonWord (c : Char) : Bool := c = ':' || wordChar c

/-- Character class `[\w\.]`. -/
def wordDot (c : Char) : Bool := wordChar c || c = '.'

/-- Character class `[\w\.\:/\-~]`. -/
def tailChar (c : Char) : Bool :=
  wordChar c || c = '.' || c = ':' || c = '/' || c = '-' || c = '~'

/-- The `user[:pass]@` fragment `\w+[\:\w]+?@` (greedy `\w+`, lazy
`[\:\w]+?`, literal `@`). -/
def userPassFrag : Re :=
  .seq (.many1G wordChar) (.seq (.many1L colonWord) (.lit ['@']))

/-- The scheme token `(git|ssh|file|rsync|http(s)?)`, capture group 2
(with group 3 on the optional `s`), alternatives in the source order. -/
def schemeRe : Re :=
  .group 2 <|
    .alt (.lit "git".toList) <|
      .alt (.lit "ssh".toList) <|
        .alt (.lit "file".toList) <|
          .alt (.lit "rsync".toList)
            (.seq (.lit "http".toList) (.group 3 (.opt (.lit ['s']))))

/-- The whole `gitRegex` pattern, transliterated group by group. -/
def gitRe : Re :=
  .seq (.group 1 (.alt schemeRe
          (.group 4 (.seq (.opt (.group 5 userPassFrag)) (.many1G wordDot))))) <|
    .seq (.group 6 (.seq (.lit [':']) (.group 7 (.opt (.lit "//".toList))))) <|
      .seq (.opt (.group 8 userPassFrag)) <|
        .seq (.group 9 (.many1G tailChar)) <|
          .seq (.group 10 (.opt (.lit ".git".toList)))
            (.group 11 (.opt (.lit ['/'])))

/-- The list of 12 match strings that `FindStringSubmatch(gitRegex, url)`
produces, or `none` when the pattern does not match anywhere (Go returns
`nil` then). `matches[0]` is the full match, `matches[i]` for `1 ≤ i ≤ 11`
the capture groups. -/
def findStringSubmatch (url : String) : Option (List String) :=
  match findSub gitRe url.toList with
  | none => none
  | some (window, rem, caps) =>
    some (⟨window.take (window.length - rem.length)⟩ ::
      (List.range 11).map (fun i => (⟨caps (i + 1)⟩ : String)))

/-! ## String helpers mirroring the Go standard library -/

/-- `strings.TrimRight(s, "@")`: remove all trailing `@` characters. -/
def trimRightAt (s : String) : String :=
  ⟨(s.toList.reverse.dropWhile (· = '@')).reverse⟩

/-- `strings.Split(s, ":")` for the one-character separator `:`. -/
def splitColon : List Char → List (List Char)
  | [] => [[]]
  | x :: xs =>
    match splitColon xs with
    | [] => [[]]
    | h :: t => if x = ':' then [] :: h :: t else (x :: h) :: t

/-- `strings.Contains(s, ":")` for the one-character substring `:`. -/
def containsColon (s : String) : Bool := s.toList.any (· = ':')

/-- `strings.Contains(s, "@")` for the one-character substring `@`. -/
def containsAt (s : String) : Bool := s.toList.any (· = '@')

/-! ## ref.go: classification -/

/-- The transport classification, `urlType` in `ref.go`. -/
inductive UrlType where
  | httpURL
  | sshURL
  | fileURL
  | gitURL
  | rsyncURL
deriving DecidableEq, Repr

/-- `validGitURL` (`ref.go` lines 68-74): the URL passes iff the pattern
matches anywhere in it (`MatchString` is unanchored); the pattern always
compiles, so the error branch of the Go function is dead. -/
def validGitURL (url : String) : Bool :=
  (findSub gitRe url.toList).isSome

/-- `parseUserPassFromMatches` (`ref.go` lines 135-149): pick the
`user[:pass]@` fragment from capture group 5 or 8 (8 overriding 5), trim
trailing `@`, and split on `:` via `strings.Split`, returning elements 0
and 1 of the split. -/
def parseUserPassFromMatches (ms : List String) : String × String :=
  let userPass := if ms.getD 5 "" ≠ "" then trimRightAt (ms.getD 5 "") else ""
  let userPass := if ms.getD 8 "" ≠ "" then trimRightAt (ms.getD 8 "") else userPass
  if containsColon userPass then
    let split := splitColon userPass.toList
    (⟨split.getD 0 []⟩, ⟨split.getD 1 []⟩)
  else
    (userPass, "")

/-- The decision part of `getRepoTypeAndUser` (`ref.go` lines 90-131),
operating on the 12 match strings: parse user/password, then switch on
`matches[1]`, with the ssh fallbacks on `matches[0]` containing `@` and on
`matches[6]` being `":"`. -/
def classifyFromMatches (ms : List String) : Except String (UrlType × String × String) :=
  let up := parseUserPassFromMatches ms
  let user := up.1
  let pass := up.2
  if ms.getD 1 "" = "ssh" then
    .ok (.sshURL, if user = "" then "git" else user, pass)
  else if ms.getD 1 "" = "http" then
    .ok (.httpURL, user, pass)
  else if ms.getD 1 "" = "https" then
    .ok (.httpURL, user, pass)
  else if ms.getD 1 "" = "file" then
    .ok (.fileURL, user, pass)
  else if ms.getD 1 "" = "rsync" then
    .ok (.rsyncURL, user, pass)
  else if ms.getD 1 "" = "git" then
    .ok (.gitURL, if user = "" then "git" else user, pass)
  else
    let user := if user = "" then "git" else user
    if containsAt (ms.getD 0 "") then
      .ok (.sshURL, user, pass)
    else if ms.getD 6 "" = ":" then
      .ok (.sshURL, user, pass)
    else
      .error "unable to determine repository type"

/-- `getRepoTypeAndUser` (`ref.go` lines 78-132): run the pattern, reject
when it does not produce the 12 capture groups (i.e. does not match), and
classify. -/
def getRepoTypeAndUser (url : String) : Except String (UrlType × String × String) :=
  match findStringSubmatch url with
  | none => .error "should have matched 12 capture groups, matched 0"
  | some ms => classifyFromMatches ms

/-! ## Part B: the repository cache (`store.go`, `cloner.go`)

The cache maps URLs to cloner entries.  A cloner entry mirrors
`AsyncRepoCloner` / `RepoCloner`: `ready : Bool`, `repo` (a pointer that
is nil until the clone succeeds), `error` (nil until the clone fails).
The credential (`transport.AuthMethod`) is opaque to the cache logic and
is modelled by a `Nat`; the credential resolver (`constructAuthMethod`)
and the reference validation both run before any cache access and return
without mutating the cache on failure, so the functions below take the
URL and the already-derived credential.  A `clones` counter instruments
every invocation of the external clone primitive (`rc.Clone` /
`git.Clone`). -/

/-- A snapshot object (`Repo`), reduced to the field the cache logic
touches: its stored credential. -/
structure MRepo where
  auth : Nat
deriving DecidableEq, Repr

/-- `AsyncRepoCloner` / `RepoCloner` state: `repo` is the Go nil-able
pointer `rc.Repo`, `error` the nil-able `rc.Error`. -/
structure MCloner where
  ready : Bool
  repo : Option MRepo
  error : Option String
deriving DecidableEq, Repr

/-- The cache table plus the clone-invocation counter. -/
structure MStore where
  repositories : List (String × MCloner)
  clones : Nat
deriving DecidableEq, Repr

/-- Assoc-list lookup, mirroring Go map indexing `rs.repositories[url]`. -/
def lookupA : List (String × MCloner) → String → Option MCloner
  | [], _ => none
  | (k, v) :: rest, key => if k = key then some v else lookupA rest key

/-- Assoc-list update of an existing key (a Go map stores one value per
key; `GetAsync` only writes the key it just read or checked). -/
def updateA : List (String × MCloner) → String → MCloner → List (String × MCloner)
  | [], _, _ => []
  | (k, v) :: rest, key, nv =>
    if k = key then (k, nv) :: rest else (k, v) :: updateA rest key nv

/-- Assoc-list removal, mirroring `delete(rs.repositories, url)`. -/
def removeA : List (String × MCloner) → String → List (String × MCloner)
  | [], _ => []
  | (k, v) :: rest, key =>
    if k = key then rest else (k, v) :: removeA rest key

/-- Outcomes of a Go function that may panic: dereferencing a nil pointer
(`rc.Repo.auth = auth` with `rc.Repo == nil`) is a runtime panic, not a
returned error. -/
inductive GoResult (α : Type) where
  | ok : α → GoResult α
  | panicked : String → GoResult α
deriving DecidableEq, Repr

/-- What the external clone primitive would report for this URL: the
collaborator behaviour is a parameter of the model (§6: `clone(url, auth,
destination) -> handle | error`). -/
inductive CloneOutcome where
  | success
  | failure (msg : String)
deriving DecidableEq, Repr

/-- The cloner entry after its background `Clone` goroutine finished with
the given outcome (`cloner.go`: on error set `Error`; on success set
`Repo` with the credential and `Ready = true`). -/
def clonerAfter (auth : Nat) : CloneOutcome → MCloner
  | .success => ⟨true, some ⟨auth⟩, none⟩
  | .failure msg => ⟨false, none, some msg⟩

/-- A cloner entry still Pending: just created, background clone not yet
finished (`AsyncRepoCloner{RepoRef: ref}`). -/
def pendingCloner : MCloner := ⟨false, none, none⟩

/-- `RepoStore.GetAsync` of `src/unnamed/part_003` lines 166-190 as a
single atomic execution (one caller, no interference).  Returns the
updated store, the returned cloner, and whether the returned completion
channel is already closed at return time (the hit path returns a freshly
closed channel).  On the hit path the source executes `rc.Repo.auth =
auth`, which panics when `rc.Repo` is nil, i.e. whenever the entry is not
Ready. -/
def getAsyncM (rs : MStore) (url : String) (auth : Nat) :
    GoResult (MStore × MCloner × Bool) :=
  match lookupA rs.repositories url with
  | some rc =>
    match rc.repo with
    | none => .panicked "runtime error: invalid memory address or nil pointer dereference"
    | some _ =>
      let rc' : MCloner := { rc with repo := some ⟨auth⟩ }
      .ok ({ rs with repositories := updateA rs.repositories url rc' }, rc', true)
  | none =>
    let rc : MCloner := pendingCloner
    .ok ({ repositories := (url, rc) :: rs.repositories, clones := rs.clones + 1 },
      rc, false)

/-- `RepoStore.Get` of `src/unnamed/part_003` lines 193-208: call
`GetAsync`, block on the completion channel, then either evict-and-return
the stored error or return the snapshot.  Blocking until the channel
closes is modelled by applying the clone outcome to the freshly created
entry; for a pre-existing entry `GetAsync` already decides the result. -/
def part003Get (rs : MStore) (url : String) (auth : Nat) (outcome : CloneOutcome) :
    GoResult (MStore × Except String MRepo) :=
  match lookupA rs.repositories url with
  | some _ =>
    match getAsyncM rs url auth with
    | .panicked msg => .panicked msg
    | .ok (rs', rc', _) =>
      match rc'.error with
      | some e => .ok ({ rs' with repositories := removeA rs'.repositories url }, .error e)
      | none =>
        match rc'.repo with
        | some r => .ok (rs', .ok r)
        | none => .ok (rs', .error "unreachable in model")
  | none =>
    let rc := clonerAfter auth outcome
    let rs' : MStore :=
      { repositories := (url, rc) :: rs.repositories, clones := rs.clones + 1 }
    match rc.error with
    | some e => .ok ({ rs' with repositories := removeA rs'.repositories url }, .error e)
    | none =>
      match rc.repo with
      | some r => .ok (rs', .ok r)
      | none => .ok (rs', .error "unreachable in model")

/-- `RepoStore.Get` of `src/store.go` lines 74-107 (the polling variant):
on a cache hit it executes `rc.Repo.auth = auth` (nil-pointer panic
unless Ready); on a miss it registers the entry via `GetAsync` and polls
`rc.Ready`.  Inside the loop the source reads

    return nil, rc.Error
    delete(rs.repositories, ref.URL)

so the `delete` is unreachable: when the clone failed the function
returns the stored error with the table unchanged. -/
def storeGoGet (rs : MStore) (url : String) (auth : Nat) (outcome : CloneOutcome) :
    GoResult (MStore × Except String MRepo) :=
  match lookupA rs.repositories url with
  | some rc =>
    match rc.repo with
    | none => .panicked "runtime error: invalid memory address or nil pointer dereference"
    | some _ =>
      let rc' : MCloner := { rc with repo := some ⟨auth⟩ }
      let rs' : MStore := { rs with repositories := updateA rs.repositories url rc' }
      match rc'.error with
      | some e => .ok (rs', .error e)
      | none =>
        match rc'.repo with
        | some r => .ok (rs', .ok r)
        | none => .ok (rs', .error "unreachable in model")
  | none =>
    let rc := clonerAfter auth outcome
    let rs' : MStore :=
      { repositories := (url, rc) :: rs.repositories, clones := rs.clones + 1 }
    match rc.error with
    | some e => .ok (rs', .error e)
    | none =>
      match rc.repo with
      | some r => .ok (rs', .ok r)
      | none => .ok (rs', .error "unreachable in model")

/-! ### Interleaving model of two concurrent `GetAsync` calls

`GetAsync` (both source variants) accesses `rs.repositories` with no lock
of any kind: the map read `rs.repositories[ref.URL]` (part_003 line 177 /
store.go line 60) and the entry creation + registration + clone start
(part_003 lines 184-188 / store.go lines 65-69) are separate operations,
and another goroutine may run between them.  We model one `GetAsync`
execution for a fixed URL as two atomic steps — the table check, and the
insert-plus-clone-start — and interleave two executions under an
arbitrary schedule. -/

/-- Program counter of one `GetAsync` execution: before the table check,
between check and insert (having missed), or finished. -/
inductive TPc where
  | atCheck
  | atInsert
  | finished
deriving DecidableEq, Repr

/-- Shared state of the interleaving model: which URLs have table entries,
and how many times the external clone primitive has been invoked. -/
structure CState where
  table : List String
  clones : Nat
deriving DecidableEq, Repr

/-- One step of one `GetAsync(url)` execution.  At the check, a present
entry sends the call down the reuse path (no clone); an absent entry
proceeds to the insert.  The insert registers the entry and starts the
background clone. -/
def stepT (url : String) : TPc → CState → TPc × CState
  | .atCheck, st =>
    if st.table.contains url then (.finished, st) else (.atInsert, st)
  | .atInsert, st =>
    (.finished, { table := url :: st.table, clones := st.clones + 1 })
  | .finished, st => (.finished, st)

/-- Configuration of two interleaved `GetAsync(url)` executions. -/
structure TwoCfg where
  pc1 : TPc
  pc2 : TPc
  st : CState
deriving DecidableEq, Repr

/-- Run one scheduled step: `true` steps the first caller, `false` the
second. -/
def stepCfg (url : String) (which : Bool) (c : TwoCfg) : TwoCfg :=
  if which then
    let (pc', st') := stepT url c.pc1 c.st
    { c with pc1 := pc', st := st' }
  else
    let (pc', st') := stepT url c.pc2 c.st
    { c with pc2 := pc', st := st' }

/-- Run a whole schedule. -/
def runSched (url : String) (sched : List Bool) (c : TwoCfg) : TwoCfg :=
  match sched with
  | [] => c
  | s :: rest => runSched url rest (stepCfg url s c)

/-- Two `GetAsync(url)` calls racing on an empty cache. -/
def runTwoGetAsync (url : String) (sched : List Bool) : TwoCfg :=
  runSched url sched ⟨.atCheck, .atCheck, ⟨[], 0⟩⟩

/-! ## Part C: the snapshot surface (`repo.go`)

The go-git collaborator is modelled from §6 of the design document (it is
external to this repository): a repository is a set of named references
mapping to commit hashes (`Nat`), a HEAD that is either symbolic (on a
branch) or detached at a hash, the branch-configuration table that
`DeleteBranch` edits, a commit store, and the outcome the next network
fetch would produce.  A trace records the externally visible mutating
primitive calls, so that ordering claims (fetch before checkout) and
frame claims (read-only queries) are expressible. -/

/-- File modes distinguished by `repo.go` (`filemode.Regular`,
`filemode.Dir`, `filemode.Symlink`). -/
inductive GFileMode where
  | regular
  | dir
  | symlink
deriving DecidableEq, Repr

/-- One entry of a commit tree: path, mode and blob contents id. -/
structure GTreeEntry where
  path : String
  mode : GFileMode
  blob : Nat
deriving DecidableEq, Repr

/-- A commit: committer timestamp (`commit.Committer.When`) and tree.
Modelled from the spec: §6 `headCommit(handle) -> commit{hash,
committerTime}` and `commitTree(commit)`. -/
structure GCommit where
  committerTime : Nat
  tree : List GTreeEntry
deriving DecidableEq, Repr

/-- HEAD: symbolic (points at a reference name) or detached at a hash. -/
inductive GHead where
  | symbolic : String → GHead
  | detached : Nat → GHead
deriving DecidableEq, Repr

/-- Externally visible mutating primitive calls, for ordering and frame
properties. -/
inductive GEvent where
  | fetch
  | checkout (hash : Nat) (force : Bool)
  | deleteBranch (name : String)
  | removeReference (name : String)
deriving DecidableEq, Repr

/-- The repository handle held by a `Repo`.  `fetchRes` is the outcome
the external fetch primitive would report (`none` covers both "ok" and
"already up to date", which `Fetch` treats alike). -/
structure GRepo where
  refs : List (String × Nat)
  head : GHead
  branchCfg : List String
  commits : List (Nat × GCommit)
  auth : Nat
  fetchRes : Option String
  trace : List GEvent
deriving DecidableEq, Repr

/-- Assoc lookup on reference names. -/
def lookupRef : List (String × Nat) → String → Option Nat
  | [], _ => none
  | (k, v) :: rest, key => if k = key then some v else lookupRef rest key

/-- Assoc lookup on commit hashes. -/
def lookupCommit : List (Nat × GCommit) → Nat → Option GCommit
  | [], _ => none
  | (k, v) :: rest, key => if k = key then some v else lookupCommit rest key

/-- Append an event to the trace. -/
def GRepo.log (r : GRepo) (e : GEvent) : GRepo :=
  { r with trace := r.trace ++ [e] }

/-- `plumbing.ReferenceName.IsBranch`: the name lives under
`refs/heads/`. -/
def isBranchName (name : String) : Bool :=
  "refs/heads/".toList.isPrefixOf name.toList

/-- `repo.Head()` resolved to a hash: a symbolic HEAD resolves through the
reference table.  Modelled from the spec: §6 `headCommit`. -/
def GRepo.headHash (r : GRepo) : Option Nat :=
  match r.head with
  | .detached h => some h
  | .symbolic name => lookupRef r.refs name

/-- `worktree.Checkout(&git.CheckoutOptions{Hash: h, Force: f})`: forces
the working tree to the commit and detaches HEAD.  Modelled from the
spec: §6 `checkout(handle, revision, {force:true})` detaches HEAD. -/
def GRepo.checkoutHash (r : GRepo) (h : Nat) (force : Bool) : GRepo :=
  { r.log (.checkout h force) with head := .detached h }

/-- `repo.DeleteBranch(name)` of go-git v4: removes the branch section
from the configuration, failing with `ErrBranchNotFound` when the section
is absent.  Modelled from the spec: §6 `deleteBranch`. -/
def GRepo.deleteBranch (r : GRepo) (name : String) : Except String GRepo :=
  if r.branchCfg.contains name then
    .ok { r.log (.deleteBranch name) with branchCfg := r.branchCfg.filter (· ≠ name) }
  else
    .error "branch not found"

/-- `repo.Storer.RemoveReference(name)`.  Modelled from the spec: §6
`deleteReference`. -/
def GRepo.removeReference (r : GRepo) (name : String) : GRepo :=
  { r.log (.removeReference name) with refs := r.refs.filter (fun p => p.1 ≠ name) }

/-- go-git's `ResolveRevision` for a textual revision, following the
`git rev-parse` rules on reference names: `HEAD`, the literal name, then
`refs/`, `refs/tags/`, `refs/heads/`, `refs/remotes/` and
`refs/remotes/<rev>/HEAD`.  Modelled from the spec: §6
`resolveRevision(handle, text) -> hash | notFound`. -/
def GRepo.resolveRevision (r : GRepo) (rev : String) : Option Nat :=
  if rev = "HEAD" then r.headHash
  else
    match lookupRef r.refs rev with
    | some h => some h
    | none =>
      match lookupRef r.refs ("refs/" ++ rev) with
      | some h => some h
      | none =>
        match lookupRef r.refs ("refs/tags/" ++ rev) with
        | some h => some h
        | none =>
          match lookupRef r.refs ("refs/heads/" ++ rev) with
          | some h => some h
          | none =>
            match lookupRef r.refs ("refs/remotes/" ++ rev) with
            | some h => some h
            | none =>
              match lookupRef r.refs ("refs/remotes/" ++ rev ++ "/HEAD") with
              | some h => some h
              | none => none

/-- `strings.TrimLeft(s, cutset)`: removes the leading characters that
are members of the cutset — the cutset is a character set, not a
prefix. -/
def trimLeftCutset (s : String) (cutset : List Char) : String :=
  ⟨s.toList.dropWhile (cutset.contains ·)⟩

/-! ### Normalization after clone (`cleanNewRepo` and helpers) -/

/-- `checkoutHeadHash` (`repo.go` lines 85-103): resolve HEAD, then force
a checkout of the literal HEAD commit hash, detaching the worktree. -/
def checkoutHeadHash (r : GRepo) : Except String GRepo :=
  match r.headHash with
  | none => .error "unable to resolve HEAD commit: reference not found"
  | some h => .ok (r.checkoutHash h true)

/-- `cleanLocalBranches` (`repo.go` lines 106-126): for every reference
under `refs/heads/`, strip the leading characters of the cutset
`"refs/heads/"` via `strings.TrimLeft` and delete that branch from the
configuration; the iteration aborts on the first `DeleteBranch` error. -/
def cleanLocalBranches (r : GRepo) : Except String GRepo :=
  let branchRefs := (r.refs.filter (fun p => isBranchName p.1)).map (·.1)
  branchRefs.foldlM
    (fun (acc : GRepo) name =>
      if isBranchName name then
        let branch := trimLeftCutset name "refs/heads/".toList
        match acc.deleteBranch branch with
        | .ok acc' => .ok acc'
        | .error e => .error ("error deleting branch " ++ name ++ ": " ++ e)
      else
        .ok acc)
    r

/-- `cleanLocalReferences` (`repo.go` lines 129-148): remove every
reference whose name is a local branch name. -/
def cleanLocalReferences (r : GRepo) : Except String GRepo :=
  let localRefs := (r.refs.filter (fun p => isBranchName p.1)).map (·.1)
  localRefs.foldlM
    (fun (acc : GRepo) name =>
      if isBranchName name then .ok (acc.removeReference name) else .ok acc)
    r

/-- `cleanNewRepo` (`repo.go` lines 65-81): detach at the HEAD hash, then
delete local branch configuration, then delete local references, wrapping
each failure. -/
def cleanNewRepo (r : GRepo) : Except String GRepo :=
  match checkoutHeadHash r with
  | .error e => .error ("error checking out HEAD: " ++ e)
  | .ok r1 =>
    match cleanLocalBranches r1 with
    | .error e => .error ("error cleaning local branches: " ++ e)
    | .ok r2 =>
      match cleanLocalReferences r2 with
      | .error e => .error ("error cleaning local references: " ++ e)
      | .ok r3 => .ok r3

/-! ### Fetch, reference resolution and checkout -/

/-- `Repo.FetchContext` (`repo.go` lines 228-242): perform the network
fetch (all tags, forced) under the write lock, then treat
"already up to date" as success.  The external fetch attempt is logged;
its outcome is the collaborator-behaviour field `fetchRes`. -/
def fetchContext (r : GRepo) : GRepo × Option String :=
  let r' := r.log .fetch
  match r.fetchRes with
  | some e => (r', some ("unable to fetch repository: " ++ e))
  | none => (r', none)

/-- `Repo.parseReference` (`repo.go` lines 198-214): resolve the revision
as given; if that fails, resolve `"refs/remotes/origin/" ++ ref`; if that
also fails return the resolution error. -/
def parseReference (r : GRepo) (ref : String) : Except String Nat :=
  match r.resolveRevision ref with
  | some h => .ok h
  | none =>
    match r.resolveRevision ("refs/remotes/origin/" ++ ref) with
    | some h => .ok h
    | none => .error "reference not found"

/-- `Repo.CheckoutContext` (`repo.go` lines 167-195): fetch first, then
load the worktree, parse the reference, and force-checkout the resolved
hash under the write lock.  Returns the repository (the Go receiver is
shared and survives errors) and the error, if any. -/
def checkoutContext (r : GRepo) (ref : String) : GRepo × Option String :=
  match fetchContext r with
  | (r1, some e) => (r1, some ("unable to fetch repository: " ++ e))
  | (r1, none) =>
    match parseReference r1 ref with
    | .error e => (r1, some ("unable to parse ref " ++ ref ++ ": " ++ e))
    | .ok h => (r1.checkoutHash h true, none)

/-! ### Read-only queries (`repo.go` lines 245-368)

Each query is embedded state-passing: it returns its result together with
the repository handle as it is after the call, mirroring how the Go
methods run against the shared `*Repo` receiver.  A `File` returned by a
query records the entry and the commit it was resolved against. -/

/-- The `File` view produced by the queries: tree entry plus the HEAD
commit it was resolved against. -/
structure QFile where
  entry : GTreeEntry
  headCommitTime : Nat
deriving DecidableEq, Repr

/-- `Repo.getHeadCommit` (`repo.go` lines 328-341): resolve HEAD under
the read lock, then load the commit object. -/
def getHeadCommit (r : GRepo) : Except String GCommit × GRepo :=
  match r.headHash with
  | none => (.error "unable to fetch repository head: reference not found", r)
  | some h =>
    match lookupCommit r.commits h with
    | none => (.error "unable to retrieve commit: object not found", r)
    | some c => (.ok c, r)

/-- `commit.File(path)` of go-git: look the path up in the commit tree,
yielding a blob entry; a missing path (or a directory entry) is a
file-not-found error.  Modelled from the spec: §6 `commitTree` /
`blobContents`. -/
def commitFile (c : GCommit) (path : String) : Except String GTreeEntry :=
  match c.tree.find? (fun e => e.path = path && e.mode ≠ .dir) with
  | some e => .ok e
  | none => .error "file not found"

/-- `Repo.GetFile` (`repo.go` lines 245-260). -/
def getFileQ (r : GRepo) (path : String) : Except String QFile × GRepo :=
  match getHeadCommit r with
  | (.error e, r1) => (.error ("unable to fetch HEAD commit: " ++ e), r1)
  | (.ok c, r1) =>
    match commitFile c path with
    | .error e => (.error ("unable to load file: " ++ e), r1)
    | .ok entry => (.ok ⟨entry, c.committerTime⟩, r1)

/-- `commit.Files()` of go-git iterates the blob (non-directory) entries
of the commit tree.  Modelled from the spec: §6 `commitTree`. -/
def commitBlobs (c : GCommit) : List GTreeEntry :=
  c.tree.filter (fun e => e.mode ≠ .dir)

/-- Brace balance check standing in for `glob.Compile` failure on a
malformed pattern.  Modelled from the spec: §4.4 "An invalid glob pattern
fails the call"; the precise gobwas/glob grammar is external to this
repository and no claim below depends on which patterns are accepted. -/
def bracesBalanced (l : List Char) : Bool :=
  (l.foldl
    (fun (acc : Option Nat) c =>
      match acc with
      | none => none
      | some n =>
        if c = '{' then some (n + 1)
        else if c = '}' then (match n with | 0 => none | m + 1 => some m)
        else some n)
    (some 0)) = some 0

/-- A `*`-wildcard matcher standing in for gobwas/glob matching.
Modelled from the spec: §4.4; no claim below depends on its decisions. -/
def globMatch : List Char → List Char → Bool
  | [], [] => true
  | [], _ :: _ => false
  | '*' :: ps, s =>
    globMatch ps s ||
      (match s with
       | [] => false
       | _ :: s' => globMatch ('*' :: ps) s')
  | _ :: _, [] => false
  | p :: ps, c :: s => p = c && globMatch ps s

/-- `glob.Compile(subPath)`: fails on a malformed pattern, otherwise
yields a matcher. -/
def globCompile (pat : String) : Option (String → Bool) :=
  if bracesBalanced pat.toList then some (fun s => globMatch pat.toList s.toList)
  else none

/-- `Repo.GetAllFiles` (`repo.go` lines 264-293): enumerate the blobs
reachable from HEAD, optionally filter by the compiled glob, optionally
drop symlinks. -/
def getAllFilesQ (r : GRepo) (subPath : String) (ignoreSymlinks : Bool) :
    Except String (List (String × QFile)) × GRepo :=
  match getHeadCommit r with
  | (.error e, r1) => (.error ("unable to read files from repository: " ++ e), r1)
  | (.ok c, r1) =>
    match (if subPath ≠ "" then (globCompile subPath).map some else some none : Option (Option (String → Bool))) with
    | none => (.error "unable to compile subPath matcher", r1)
    | some g =>
      let files := (commitBlobs c).filter (fun e =>
        (match g with
         | some m => m e.path
         | none => true) &&
        !(ignoreSymlinks && e.mode = .symlink))
      (.ok (files.map (fun e => (e.path, (⟨e, c.committerTime⟩ : QFile)))), r1)

/-- `tree.FindEntry(path)`: look the path up among all tree entries
(directories included).  Modelled from the spec: §6 `commitTree`. -/
def treeFindEntry (c : GCommit) (path : String) : Except String GTreeEntry :=
  match c.tree.find? (fun e => e.path = path) with
  | some e => .ok e
  | none => .error "entry not found"

/-- `Repo.isFileMode` (`repo.go` lines 353-368). -/
def isFileModeQ (r : GRepo) (path : String) (mode : GFileMode) :
    Except String Bool × GRepo :=
  match getHeadCommit r with
  | (.error e, r1) => (.error ("error fetching head commit: " ++ e), r1)
  | (.ok c, r1) =>
    match treeFindEntry c path with
    | .error e => (.error ("error looking up path: " ++ e), r1)
    | .ok entry => (.ok (entry.mode = mode), r1)

/-- `Repo.IsDirectory` (`repo.go` lines 344-346). -/
def isDirectoryQ (r : GRepo) (path : String) : Except String Bool × GRepo :=
  isFileModeQ r path .dir

/-- `Repo.IsFile` (`repo.go` lines 349-351). -/
def isFileQ (r : GRepo) (path : String) : Except String Bool × GRepo :=
  isFileModeQ r path .regular

/-- `Repo.LastUpdated` (`repo.go` lines 319-326). -/
def lastUpdatedQ (r : GRepo) : Except String Nat × GRepo :=
  match getHeadCommit r with
  | (.error e, r1) => (.error ("unable to fetch HEAD commit: " ++ e), r1)
  | (.ok c, r1) => (.ok c.committerTime, r1)

/-! ## Part D: blame and `FileLog` (`repo.go` lines 385-414)

`git.Blame` is an external primitive (§6: `blame(commit, path) ->
sequence of {date, revisionHash, author, text} | error`); a file handle
carries the outcome the primitive would produce for it.  Dates are
modelled as naturals, `0` being Go's zero `time.Time`, and `a.After(b)`
is strict `b < a`. -/

/-- One line of a blame result (`git.Line`). -/
structure BlameLine where
  date : Nat
  hash : Nat
  author : String
  text : String
deriving DecidableEq, Repr

/-- `git.BlameResult`, reduced to the field `FileLog` reads. -/
structure BlameResult where
  lines : List BlameLine
deriving DecidableEq, Repr

/-- A file handle as `File.getBlame`/`File.FileLog` see it: its name and
the outcome the external blame primitive would report for it at the
commit the handle was resolved against. -/
structure BFile where
  name : String
  blameRes : Except String (List BlameLine)
deriving Repr

/-- `GitLog` (`repo.go` lines 45-50). -/
structure GitLog where
  date : Nat
  hash : Nat
  author : String
  text : String
deriving DecidableEq, Repr

/-- The zero value of `GitLog`. -/
def GitLog.zero : GitLog := ⟨0, 0, "", ""⟩

/-- The `GitLog` made from one blame line. -/
def BlameLine.toLog (l : BlameLine) : GitLog := ⟨l.date, l.hash, l.author, l.text⟩

/-- `File.getBlame` (`repo.go` lines 385-392): on a blame failure, log a
warning and return an empty `BlameResult` with a nil error. -/
def getBlame (f : BFile) : Except String BlameResult :=
  match f.blameRes with
  | .error _ => .ok ⟨[]⟩
  | .ok ls => .ok ⟨ls⟩

/-- The loop body of `FileLog`: keep the line whose date is strictly
after the accumulator's. -/
def fileLogLoop : List BlameLine → GitLog → GitLog
  | [], acc => acc
  | l :: ls, acc => fileLogLoop ls (if acc.date < l.date then l.toLog else acc)

/-- `File.FileLog` (`repo.go` lines 395-414). -/
def fileLog (f : BFile) : Except String GitLog :=
  match getBlame f with
  | .error e => .error ("unable to get blame for " ++ f.name ++ ": " ++ e)
  | .ok blame => .ok (fileLogLoop blame.lines GitLog.zero)

/-! ## Fixtures and specification-side definitions used by the theorems -/

/-- A freshly cloned repository whose default branch is `master`: the
local branch, its remote-tracking twin, a symbolic HEAD on the local
branch, and the branch configuration section the clone created. -/
def masterClone : GRepo :=
  { refs := [("refs/heads/master", 5), ("refs/remotes/origin/master", 5)],
    head := .symbolic "refs/heads/master",
    branchCfg := ["master"],
    commits := [(5, ⟨100, []⟩)],
    auth := 0,
    fetchRes := none,
    trace := [] }

/-- The same fresh clone with default branch `develop`. -/
def developClone : GRepo :=
  { refs := [("refs/heads/develop", 5), ("refs/remotes/origin/develop", 5)],
    head := .symbolic "refs/heads/develop",
    branchCfg := ["develop"],
    commits := [(5, ⟨100, []⟩)],
    auth := 0,
    fetchRes := none,
    trace := [] }

/-- `masterClone` after `cleanNewRepo`: detached at the HEAD hash, no
local branch reference, no branch configuration. -/
def masterCloneNormalized : GRepo :=
  { refs := [("refs/remotes/origin/master", 5)],
    head := .detached 5,
    branchCfg := [],
    commits := [(5, ⟨100, []⟩)],
    auth := 0,
    fetchRes := none,
    trace := [.checkout 5 true, .deleteBranch "master",
      .removeReference "refs/heads/master"] }

/-- The 12 match strings `gitRegex` produces for
`host.xz:path/to/repo.git` (the bare scp-style locator of the
classification table). -/
def msHost : List String :=
  ["host.xz:path/to/repo.git", "host.xz", "", "", "host.xz", "", ":", "", "",
    "path/to/repo.git", "", ""]

/-- The `user[:pass]@` fragment `parseUserPassFromMatches` works on:
group 8 when present, otherwise group 5, trimmed of trailing `@`. -/
def effUserPass (ms : List String) : String :=
  if ms.getD 8 "" ≠ "" then trimRightAt (ms.getD 8 "")
  else if ms.getD 5 "" ≠ "" then trimRightAt (ms.getD 5 "")
  else ""

/-- Specification-side username: everything before the first colon. -/
def specUser (up : List Char) : List Char := up.takeWhile (· ≠ ':')

/-- Specification-side password as the code computes it: the text
strictly between the first and the second colon (everything after the
first colon only when there is no second one). -/
def specPass (up : List Char) : List Char :=
  ((up.dropWhile (· ≠ ':')).drop 1).takeWhile (· ≠ ':')

/-- The latest date among the blame lines (`0` = Go's zero time). -/
def maxDate (ls : List BlameLine) : Nat :=
  ls.foldr (fun l m => max l.date m) 0

/-- Specification-side `FileLog` result: the first line attaining the
maximal date, provided that date is after the zero time; otherwise the
zero log. -/
def specLog (ls : List BlameLine) : GitLog :=
  if 0 < maxDate ls then
    match ls.find? (fun l => l.date = maxDate ls) with
    | some l => l.toLog
    | none => GitLog.zero
  else GitLog.zero

/-- The line list `FileLog` effectively folds over: the blame lines, or
the empty list when the blame primitive failed. -/
def effLines (f : BFile) : List BlameLine :=
  match f.blameRes with
  | .error _ => []
  | .ok ls => ls

/-! ## Claims -/

/-- C2.  The claim says a `Get` observing a Failed entry returns the
stored error and removes the entry so the next `Get` re-clones.  The
`Get` of `src/unnamed/part_003` (lines 193-208) and the code's own
comment implement exactly that, but in the `Get` of `src/store.go`
(lines 74-107) the `delete` statement sits after the `return`, so it is
unreachable: the error is returned and the failed entry stays in the
table.  This theorem evaluates both variants on the same failing clone:
the part_003 variant evicts, the store.go variant retains the entry (and
a repeated `Get` then panics on the nil `Repo` of the retained failed
entry instead of re-cloning). -/
theorem c2_failed_entry_eviction_divergence :
    ∀ (url : String) (auth n : Nat) (e : String),
      part003Get ⟨[], n⟩ url auth (.failure e) =
        .ok (⟨[], n + 1⟩, .error e) ∧
      storeGoGet ⟨[], n⟩ url auth (.failure e) =
        .ok (⟨[(url, ⟨false, none, some e⟩)], n + 1⟩, .error e) ∧
      storeGoGet ⟨[(url, ⟨false, none, some e⟩)], n⟩ url auth (.failure e) =
        .panicked "runtime error: invalid memory address or nil pointer dereference" := by
  intro url auth n e
  refine ⟨?_, ?_, ?_⟩ <;>
    simp [part003Get, storeGoGet, lookupA, clonerAfter, removeA]

/-- C3.  The claim says `GetAsync` on an existing entry, in any state,
refreshes the stored credential in place and returns the entry without
starting a clone.  The source executes `rc.Repo.auth = auth` on the hit
path; `rc.Repo` is nil while the entry is Pending and after it Failed,
so those states panic with a nil-pointer dereference instead — only the
Ready state behaves as claimed. -/
theorem c3_credential_refresh_divergence :
    ∀ (url : String) (a a0 n : Nat) (e : String),
      getAsyncM ⟨[(url, pendingCloner)], n⟩ url a =
        .panicked "runtime error: invalid memory address or nil pointer dereference" ∧
      getAsyncM ⟨[(url, clonerAfter a0 (.failure e))], n⟩ url a =
        .panicked "runtime error: invalid memory address or nil pointer dereference" ∧
      getAsyncM ⟨[(url, clonerAfter a0 .success)], n⟩ url a =
        .ok (⟨[(url, ⟨true, some ⟨a⟩, none⟩)], n⟩, ⟨true, some ⟨a⟩, none⟩, true) := by
  intro url a a0 n e
  refine ⟨?_, ?_, ?_⟩ <;>
    simp [getAsyncM, lookupA, pendingCloner, clonerAfter, updateA]

/-- C4.  On a fresh clone whose default branch is `master` the claimed
behaviour holds end to end: `cleanNewRepo` checks out the literal HEAD
hash with force, deletes the local branch and its configuration entry,
deletes the remaining local reference, the literal `refs/heads/master`
no longer resolves, and `Checkout("master")` still succeeds through the
`refs/remotes/origin/` fallback, leaving HEAD detached.  But the claim
quantifies over every cloned repository, and `cleanLocalBranches`
computes the branch name with `strings.TrimLeft(name, "refs/heads/")`,
which strips a character *set*, not a prefix: for a default branch
`develop` it produces `velop`, `DeleteBranch("velop")` fails with
branch-not-found, and normalization errors out instead of deleting the
branch — the code contradicts the spec and its own intent. -/
theorem c4_normalization_divergence :
    cleanNewRepo masterClone = .ok masterCloneNormalized ∧
    lookupRef masterCloneNormalized.refs "refs/heads/master" = none ∧
    masterCloneNormalized.resolveRevision "refs/heads/master" = none ∧
    masterCloneNormalized.head = .detached 5 ∧
    (checkoutContext masterCloneNormalized "master").2 = none ∧
    ((checkoutContext masterCloneNormalized "master").1).head = .detached 5 ∧
    trimLeftCutset "refs/heads/develop" "refs/heads/".toList = "velop" ∧
    cleanNewRepo developClone =
      .error "error cleaning local branches: error deleting branch refs/heads/develop: branch not found" := by
  refine ⟨?_, ?_, ?_, ?_, ?_, ?_, ?_, ?_⟩ <;> rfl

/-- `splitColon` never yields the empty list. -/
theorem splitColon_ne_nil (l : List Char) : splitColon l ≠ [] := by
  induction l with
  | nil => simp [splitColon]
  | cons x xs ih =>
    simp only [splitColon]
    split
    · simp
    · split <;> simp

/-- `specUser` on a leading colon. -/
theorem specUser_cons_colon (xs : List Char) : specUser (':' :: xs) = [] := by
  simp [specUser]

/-- `specUser` steps over a non-colon character. -/
theorem specUser_cons_ne (x : Char) (xs : List Char) (hx : ¬x = ':') :
    specUser (x :: xs) = x :: specUser xs := by
  simp [specUser, List.takeWhile_cons, hx]

/-- `specPass` after a leading colon is the username of the tail. -/
theorem specPass_cons_colon (xs : List Char) : specPass (':' :: xs) = specUser xs := by
  simp [specPass, specUser, List.dropWhile_cons]

/-- `specPass` ignores a leading non-colon character. -/
theorem specPass_cons_ne (x : Char) (xs : List Char) (hx : ¬x = ':') :
    specPass (x :: xs) = specPass xs := by
  simp [specPass, List.dropWhile_cons, hx]

/-- The first split segment is everything before the first colon. -/
theorem splitColon_getD_zero (l : List Char) :
    (splitColon l).getD 0 [] = specUser l := by
  induction l with
  | nil => simp [splitColon, specUser]
  | cons x xs ih =>
    simp only [splitColon]
    rcases h : splitColon xs with _ | ⟨hd, tl⟩
    · exact absurd h (splitColon_ne_nil xs)
    · rw [h] at ih
      by_cases hx : x = ':'
      · subst hx
        simp [specUser_cons_colon]
      · simp only [if_neg hx, specUser_cons_ne x xs hx]
        simpa using ih

/-- When the list contains a colon, the second split segment is the text
strictly between the first and the second colon. -/
theorem splitColon_getD_one (l : List Char) (h : l.any (· = ':') = true) :
    (splitColon l).getD 1 [] = specPass l := by
  induction l with
  | nil => simp at h
  | cons x xs ih =>
    simp only [splitColon]
    rcases hs : splitColon xs with _ | ⟨hd, tl⟩
    · exact absurd hs (splitColon_ne_nil xs)
    · by_cases hx : x = ':'
      · subst hx
        have h0 := splitColon_getD_zero xs
        rw [hs] at h0
        simpa [specPass_cons_colon] using h0
      · have hxs : xs.any (· = ':') = true := by
          simpa [List.any_cons, hx] using h
        have := ih hxs
        rw [hs] at this
        simpa [if_neg hx, specPass_cons_ne x xs hx] using this

/-- C7 counterexample.  For the locator `a:b:c@host.xz:path/to/repo`, the
`user[:pass]@` fragment is `a:b:c@`; the claim says everything after the
first colon (`b:c`) becomes the password, but `strings.Split` cuts at
every colon and element 1 is only `b`. -/
theorem c7_counterexample :
    getRepoTypeAndUser "a:b:c@host.xz:path/to/repo" = .ok (.sshURL, "a", "b") ∧
    parseUserPassFromMatches
        ["a:b:c@host.xz:path/to/repo", "a:b:c@host.xz", "", "", "a:b:c@host.xz",
          "a:b:c@", ":", "", "", "path/to/repo", "", ""] = ("a", "b") ∧
    ¬(∀ ms : List String, containsColon (effUserPass ms) = true →
        (parseUserPassFromMatches ms).2 =
          (⟨((effUserPass ms).toList.dropWhile (· ≠ ':')).drop 1⟩ : String)) := by
  refine ⟨by rfl, by rfl, fun hall => ?_⟩
  have h := hall
    ["a:b:c@host.xz:path/to/repo", "a:b:c@host.xz", "", "", "a:b:c@host.xz",
      "a:b:c@", ":", "", "", "path/to/repo", "", ""] (by rfl)
  rw [show (parseUserPassFromMatches
      ["a:b:c@host.xz:path/to/repo", "a:b:c@host.xz", "", "", "a:b:c@host.xz",
        "a:b:c@", ":", "", "", "path/to/repo", "", ""]).2 = "b" from rfl] at h
  exact absurd h (by decide)

/-- C7 amended.  `parseUserPassFromMatches` takes the `user[:pass]@`
fragment (group 8, else group 5, trimmed of trailing `@`); when it
contains a colon the username is everything before the first colon and
the password is the text strictly between the first and second colons
(which is everything after the first colon only when no second colon
exists); otherwise the whole fragment is the username and the password
is empty. -/
theorem c7_split_amended (ms : List String) :
    parseUserPassFromMatches ms =
      (if containsColon (effUserPass ms) then
        ((⟨specUser (effUserPass ms).toList⟩ : String),
          (⟨specPass (effUserPass ms).toList⟩ : String))
      else (effUserPass ms, "")) := by
  have heq : ∀ up : String,
      (if containsColon up then
        ((⟨(splitColon up.toList).getD 0 []⟩ : String),
          (⟨(splitColon up.toList).getD 1 []⟩ : String))
      else (up, "")) =
      (if containsColon up then
        ((⟨specUser up.toList⟩ : String), (⟨specPass up.toList⟩ : String))
      else (up, "")) := by
    intro up
    cases hc : containsColon up with
    | false => simp
    | true =>
      have h0 := splitColon_getD_zero up.toList
      have h1 := splitColon_getD_one up.toList hc
      simp only [List.getD_eq_getElem?_getD, String.toList] at h0 h1
      simp [h0, h1]
  simp only [parseUserPassFromMatches]
  by_cases h8 : ms.getD 8 "" = "" <;> by_cases h5 : ms.getD 5 "" = "" <;>
    simp only [h8, h5, ne_eq, not_true_eq_false, not_false_eq_true, if_true, if_false,
      ite_true, ite_false, effUserPass] <;>
    exact heq _

/-- A strictly positive maximal date is attained by some line. -/
theorem find?_maxDate_isSome (ls : List BlameLine) (h : 0 < maxDate ls) :
    (ls.find? (fun l => l.date = maxDate ls)).isSome = true := by
  induction ls with
  | nil => simp [maxDate] at h
  | cons l ls ih =>
    have hmax : maxDate (l :: ls) = max l.date (maxDate ls) := rfl
    by_cases hl : l.date = maxDate (l :: ls)
    · rw [List.find?_cons_of_pos _ (by simp [hl])]
      rfl
    · have hm : maxDate (l :: ls) = maxDate ls := by
        rw [hmax] at hl ⊢
        omega
      rw [List.find?_cons_of_neg _ (by simp [hl])]
      rw [hm] at h ⊢
      exact ih h

/-- The `FileLog` fold keeps the first line whose date is strictly above
everything seen so far: it computes the first line attaining the maximal
date, provided that maximum is strictly above the accumulator's date. -/
theorem fileLogLoop_spec (ls : List BlameLine) (acc : GitLog) :
    fileLogLoop ls acc =
      (if acc.date < maxDate ls then
        match ls.find? (fun l => l.date = maxDate ls) with
        | some l => l.toLog
        | none => acc
      else acc) := by
  induction ls generalizing acc with
  | nil => simp [fileLogLoop, maxDate]
  | cons l ls ih =>
    have hmax : maxDate (l :: ls) = max l.date (maxDate ls) := rfl
    simp only [fileLogLoop]
    by_cases hl : acc.date < l.date
    · rw [if_pos hl, ih]
      by_cases hls : l.date < maxDate ls
      · have hm : maxDate (l :: ls) = maxDate ls := by rw [hmax]; omega
        have hfind : (l :: ls).find? (fun x => x.date = maxDate (l :: ls)) =
            ls.find? (fun x => x.date = maxDate ls) := by
          rw [hm]
          exact List.find?_cons_of_neg _ (by simp; omega)
        rw [if_pos (show (l.toLog).date < maxDate ls from hls),
          if_pos (by omega : acc.date < maxDate (l :: ls)), hfind]
        rcases hf : ls.find? (fun x => x.date = maxDate ls) with _ | x
        · exfalso
          have hsome := find?_maxDate_isSome ls (by omega)
          rw [hf] at hsome
          simp at hsome
        · rw [hf]
      · have hm : maxDate (l :: ls) = l.date := by rw [hmax]; omega
        rw [if_neg (show ¬(l.toLog).date < maxDate ls from hls),
          if_pos (by omega : acc.date < maxDate (l :: ls)),
          List.find?_cons_of_pos _ (by simp [hm])]
    · rw [if_neg hl, ih]
      by_cases hls : acc.date < maxDate ls
      · have hm : maxDate (l :: ls) = maxDate ls := by rw [hmax]; omega
        have hfind : (l :: ls).find? (fun x => x.date = maxDate (l :: ls)) =
            ls.find? (fun x => x.date = maxDate ls) := by
          rw [hm]
          exact List.find?_cons_of_neg _ (by simp; omega)
        rw [if_pos hls, if_pos (by omega : acc.date < maxDate (l :: ls)), hfind]
      · rw [if_neg hls, if_neg (by rw [hmax]; omega : ¬acc.date < maxDate (l :: ls))]

/-- C8 counterexample.  A blame that succeeds with the single line dated
at Go's zero time: the claim says `FileLog` returns that line's metadata,
but `line.Date.After(fileLog.Date)` is false for the zero date, so the
zero-valued log is returned instead. -/
theorem c8_counterexample :
    fileLog ⟨"f", .ok [⟨0, 7, "alice", "hello"⟩]⟩ = .ok GitLog.zero ∧
    GitLog.zero ≠ (⟨0, 7, "alice", "hello"⟩ : BlameLine).toLog ∧
    ¬(∀ (f : BFile) (ls : List BlameLine) (l : BlameLine),
        f.blameRes = .ok ls → l ∈ ls → (∀ l' ∈ ls, l'.date ≤ l.date) →
        fileLog f = .ok l.toLog) := by
  refine ⟨by rfl, by simp [GitLog.zero, BlameLine.toLog], fun hall => ?_⟩
  have h := hall ⟨"f", .ok [⟨0, 7, "alice", "hello"⟩]⟩ [⟨0, 7, "alice", "hello"⟩]
    ⟨0, 7, "alice", "hello"⟩ rfl (by simp) (by intro l' hl'; simp at hl'; simp [hl'])
  rw [show fileLog ⟨"f", .ok [⟨0, 7, "alice", "hello"⟩]⟩ = .ok GitLog.zero from rfl] at h
  exact absurd h (by simp [GitLog.zero, BlameLine.toLog])

/-- C8 amended.  `FileLog` never surfaces a blame failure — it always
returns `.ok`: when blame fails the result is the zero-valued log of the
empty line list; when blame succeeds it is the metadata of the first
line attaining the maximal date, provided that date is after the zero
time, and the zero-valued log otherwise (in particular also for a
non-empty list whose every line carries the zero date). -/
theorem c8_filelog_amended (f : BFile) :
    fileLog f = .ok (specLog (effLines f)) := by
  have hloop : fileLogLoop (effLines f) GitLog.zero = specLog (effLines f) := by
    rw [fileLogLoop_spec]
    simp only [specLog, GitLog.zero]
  have hbl : getBlame f = .ok ⟨effLines f⟩ := by
    cases hres : f.blameRes <;> simp [getBlame, effLines, hres]
  simp [fileLog, hbl, hloop]

/-- `getHeadCommit` returns the repository unchanged in every branch. -/
theorem getHeadCommit_snd (r : GRepo) : (getHeadCommit r).2 = r := by
  unfold getHeadCommit
  split
  · rfl
  · split <;> rfl

/-- C9.  Every read-only query — `GetFile`, `GetAllFiles`, `IsDirectory`,
`IsFile`, `LastUpdated` — returns the repository state (handle,
references, HEAD position, stored credential, trace) unchanged, whether
the query succeeds or fails. -/
theorem c9_readonly_queries_frame (r : GRepo) (path subPath : String)
    (ignoreSymlinks : Bool) :
    (getFileQ r path).2 = r ∧
    (getAllFilesQ r subPath ignoreSymlinks).2 = r ∧
    (isDirectoryQ r path).2 = r ∧
    (isFileQ r path).2 = r ∧
    (lastUpdatedQ r).2 = r := by
  refine ⟨?_, ?_, ?_, ?_, ?_⟩
  · have hhc := getHeadCommit_snd r
    unfold getFileQ
    split
    next e r1 heq =>
      rw [heq] at hhc
      simpa using hhc
    next c r1 heq =>
      rw [heq] at hhc
      simp only at hhc
      subst hhc
      split <;> rfl
  · have hhc := getHeadCommit_snd r
    unfold getAllFilesQ
    split
    next e r1 heq =>
      rw [heq] at hhc
      simpa using hhc
    next c r1 heq =>
      rw [heq] at hhc
      simp only at hhc
      subst hhc
      split <;> rfl
  · have hhc := getHeadCommit_snd r
    unfold isDirectoryQ isFileModeQ
    split
    next e r1 heq =>
      rw [heq] at hhc
      simpa using hhc
    next c r1 heq =>
      rw [heq] at hhc
      simp only at hhc
      subst hhc
      split <;> rfl
  · have hhc := getHeadCommit_snd r
    unfold isFileQ isFileModeQ
    split
    next e r1 heq =>
      rw [heq] at hhc
      simpa using hhc
    next c r1 heq =>
      rw [heq] at hhc
      simp only at hhc
      subst hhc
      split <;> rfl
  · have hhc := getHeadCommit_snd r
    unfold lastUpdatedQ
    split
    next e r1 heq =>
      rw [heq] at hhc
      simpa using hhc
    next c r1 heq =>
      rw [heq] at hhc
      simpa using hhc

/-- When the URL already has a table entry, a `GetAsync` step never
reaches the insert: the entry stays, the counter is untouched. -/
theorem runSched_entry_present (url : String) :
    ∀ (sched : List Bool) (c : TwoCfg),
      c.st.table.contains url = true →
      c.pc1 ≠ .atInsert → c.pc2 ≠ .atInsert →
      (runSched url sched c).st.clones = c.st.clones := by
  intro sched
  induction sched with
  | nil => intro c _ _ _; rfl
  | cons s rest ih =>
    intro c hmem h1 h2
    have hmem' : url ∈ c.st.table := by simpa using hmem
    show (runSched url rest (stepCfg url s c)).st.clones = c.st.clones
    cases s
    · cases hpc : c.pc2 with
      | atCheck =>
        have hstep : stepCfg url false c = { c with pc2 := .finished } := by
          simp [stepCfg, stepT, hpc, hmem']
        rw [hstep]
        exact ih _ hmem h1 (by simp)
      | atInsert => exact absurd hpc h2
      | finished =>
        have hstep : stepCfg url false c = c := by
          simp [stepCfg, stepT, hpc]
          rw [← hpc]
        rw [hstep]
        exact ih _ hmem h1 h2
    · cases hpc : c.pc1 with
      | atCheck =>
        have hstep : stepCfg url true c = { c with pc1 := .finished } := by
          simp [stepCfg, stepT, hpc, hmem']
        rw [hstep]
        exact ih _ hmem (by simp) h2
      | atInsert => exact absurd hpc h1
      | finished =>
        have hstep : stepCfg url true c = c := by
          simp [stepCfg, stepT, hpc]
          rw [← hpc]
        rw [hstep]
        exact ih _ hmem h1 h2

/-- C1 counterexample.  `GetAsync` holds no lock between its table check
and its insert-plus-clone (there is no shared-lock check, no exclusive
re-check in the source), so the interleaving check₁ check₂ insert₁
insert₂ of two first-time callers starts two clones: the claimed
single-flight property fails. -/
theorem c1_counterexample :
    (runTwoGetAsync "https://host.xz/repo.git" [true, false, true, false]).st.clones = 2 ∧
    ¬(∀ (url : String) (sched : List Bool),
        (runTwoGetAsync url sched).st.clones ≤ 1) := by
  refine ⟨by rfl, fun h => ?_⟩
  have hc := h "https://host.xz/repo.git" [true, false, true, false]
  rw [show (runTwoGetAsync "https://host.xz/repo.git" [true, false, true, false]).st.clones = 2
    from rfl] at hc
  omega

/-- C1 amended.  Without interference the cache is single-flight: a
first-time `GetAsync` that completes before the second call starts leads
to exactly one clone, and once a table entry exists for the URL no
schedule of two further `GetAsync` calls starts any clone.  Only the
claimed protection against interleaved first-time callers (the
double-checked locking) is absent from the code. -/
theorem c1_single_flight_amended :
    (∀ url : String,
      (runTwoGetAsync url [true, true, false, false]).st.clones = 1) ∧
    (∀ (url : String) (sched : List Bool) (n : Nat),
      (runSched url sched ⟨.atCheck, .atCheck, ⟨[url], n⟩⟩).st.clones = n) := by
  constructor
  · intro url
    have h1 : stepCfg url true ⟨.atCheck, .atCheck, ⟨[], 0⟩⟩ =
        ⟨.atInsert, .atCheck, ⟨[], 0⟩⟩ := by
      simp [stepCfg, stepT, List.contains]
    have h2 : stepCfg url true ⟨.atInsert, .atCheck, ⟨[], 0⟩⟩ =
        ⟨.finished, .atCheck, ⟨[url], 1⟩⟩ := by
      simp [stepCfg, stepT]
    have h3 : stepCfg url false ⟨.finished, .atCheck, ⟨[url], 1⟩⟩ =
        ⟨.finished, .finished, ⟨[url], 1⟩⟩ := by
      simp [stepCfg, stepT, List.contains_cons]
    have h4 : stepCfg url false ⟨.finished, .finished, ⟨[url], 1⟩⟩ =
        ⟨.finished, .finished, ⟨[url], 1⟩⟩ := by
      simp [stepCfg, stepT]
    show (runSched url [true, true, false, false] ⟨.atCheck, .atCheck, ⟨[], 0⟩⟩).st.clones = 1
    simp only [runSched, h1, h2, h3, h4]
  · intro url sched n
    exact runSched_entry_present url sched ⟨.atCheck, .atCheck, ⟨[url], n⟩⟩
      (by simp [List.contains_cons]) (by simp) (by simp)

/-- C6.  Classification reproduces the spec table: each listed URL yields
the listed transport, username and password — in particular the bare
scp-style locator `host.xz:path/to/repo.git` classifies as ssh — and, in
general, whenever the match produced no `user[:pass]@` fragment and the
decision lands on the ssh or git transport, the returned username is the
default `"git"`. -/
theorem c6_classification_table :
    getRepoTypeAndUser "ssh://user@host.xz:port/path/to/repo.git/" =
      .ok (.sshURL, "user", "") ∧
    getRepoTypeAndUser "host.xz:path/to/repo.git" = .ok (.sshURL, "git", "") ∧
    getRepoTypeAndUser "user:pass@host.xz:path/to/repo.git" =
      .ok (.sshURL, "user", "pass") ∧
    getRepoTypeAndUser "https://host.xz/path/to/repo.git/" = .ok (.httpURL, "", "") ∧
    getRepoTypeAndUser "file:///path/to/repo.git/" = .ok (.fileURL, "", "") ∧
    getRepoTypeAndUser "rsync://host.xz/path/to/repo.git/" = .ok (.rsyncURL, "", "") ∧
    (∀ (ms : List String) (ty : UrlType) (u p : String),
      (parseUserPassFromMatches ms).1 = "" →
      classifyFromMatches ms = .ok (ty, u, p) →
      (ty = .sshURL ∨ ty = .gitURL) →
      u = "git") := by
  refine ⟨by rfl, by rfl, by rfl, by rfl, by rfl, by rfl, ?_⟩
  intro ms ty u p hup hok hty
  unfold classifyFromMatches at hok
  rcases hpp : parseUserPassFromMatches ms with ⟨user, pass⟩
  rw [hpp] at hok hup
  simp only at hok hup
  subst hup
  clear hpp
  simp only [if_pos (rfl : ("" : String) = "")] at hok
  split at hok
  case isTrue =>
    simp only [Except.ok.injEq, Prod.mk.injEq] at hok
    exact hok.2.1.symm
  case isFalse =>
  split at hok
  case isTrue =>
    simp only [Except.ok.injEq, Prod.mk.injEq] at hok
    rcases hty with rfl | rfl <;> exact UrlType.noConfusion hok.1
  case isFalse =>
  split at hok
  case isTrue =>
    simp only [Except.ok.injEq, Prod.mk.injEq] at hok
    rcases hty with rfl | rfl <;> exact UrlType.noConfusion hok.1
  case isFalse =>
  split at hok
  case isTrue =>
    simp only [Except.ok.injEq, Prod.mk.injEq] at hok
    rcases hty with rfl | rfl <;> exact UrlType.noConfusion hok.1
  case isFalse =>
  split at hok
  case isTrue =>
    simp only [Except.ok.injEq, Prod.mk.injEq] at hok
    rcases hty with rfl | rfl <;> exact UrlType.noConfusion hok.1
  case isFalse =>
  split at hok
  case isTrue =>
    simp only [Except.ok.injEq, Prod.mk.injEq] at hok
    exact hok.2.1.symm
  case isFalse =>
  split at hok
  case isTrue =>
    simp only [Except.ok.injEq, Prod.mk.injEq] at hok
    exact hok.2.1.symm
  case isFalse =>
  split at hok
  case isTrue =>
    simp only [Except.ok.injEq, Prod.mk.injEq] at hok
    exact hok.2.1.symm
  case isFalse => exact Except.noConfusion hok

/-- C6 witness: the bare scp-style table row, classified through the
general default-username conjunct of `c6_classification_table`. -/
theorem c6_classification_table_witness :
    (parseUserPassFromMatches msHost).1 = "" ∧
    classifyFromMatches msHost = .ok (.sshURL, "git", "") ∧
    ("git" : String) = "git" :=
  ⟨by rfl, by rfl,
    c6_classification_table.2.2.2.2.2.2 msHost .sshURL "git" "" (by rfl) (by rfl)
      (Or.inl rfl)⟩

/-- Logging an event does not change how revisions resolve. -/
theorem resolveRevision_log (r : GRepo) (e : GEvent) (rev : String) :
    (r.log e).resolveRevision rev = r.resolveRevision rev := rfl

/-- C5.  `Checkout(ref)` (via `CheckoutContext`) fetches first — the
fetch event precedes anything else the call appends to the trace — then
resolves `ref` by exactly two attempts in order: the literal revision,
then `"refs/remotes/origin/" ++ ref`; if either succeeds the working
tree is force-reset to the resolved commit and HEAD ends detached at it,
and if both fail the call mutates nothing further and returns an error
message naming the attempted ref. -/
theorem c5_checkout_resolution (r : GRepo) (ref : String)
    (hf : r.fetchRes = none) :
    (∃ t, ((checkoutContext r ref).1).trace = r.trace ++ GEvent.fetch :: t) ∧
    (match r.resolveRevision ref,
        r.resolveRevision ("refs/remotes/origin/" ++ ref) with
      | some h, _ =>
        checkoutContext r ref = ((r.log .fetch).checkoutHash h true, none)
      | none, some h =>
        checkoutContext r ref = ((r.log .fetch).checkoutHash h true, none)
      | none, none =>
        ∃ rest, checkoutContext r ref =
          (r.log .fetch, some ("unable to parse ref " ++ ref ++ ": " ++ rest))) ∧
    ((checkoutContext r ref).2 = none →
      ∃ h, ((checkoutContext r ref).1).head = .detached h ∧
        ((checkoutContext r ref).1).trace =
          r.trace ++ [GEvent.fetch, GEvent.checkout h true]) := by
  have hcc : checkoutContext r ref =
      (match parseReference (r.log .fetch) ref with
        | .error e => (r.log .fetch, some ("unable to parse ref " ++ ref ++ ": " ++ e))
        | .ok h => ((r.log .fetch).checkoutHash h true, none)) := by
    unfold checkoutContext fetchContext
    rw [hf]
  have hpr : parseReference (r.log .fetch) ref =
      (match r.resolveRevision ref,
          r.resolveRevision ("refs/remotes/origin/" ++ ref) with
        | some h, _ => .ok h
        | none, some h => .ok h
        | none, none => .error "reference not found") := by
    unfold parseReference
    rw [resolveRevision_log, resolveRevision_log]
    rcases r.resolveRevision ref with _ | h
    · rcases r.resolveRevision ("refs/remotes/origin/" ++ ref) with _ | h' <;> rfl
    · rfl
  refine ⟨?_, ?_, ?_⟩
  · rw [hcc, hpr]
    rcases h1 : r.resolveRevision ref with _ | h
    · rcases h2 : r.resolveRevision ("refs/remotes/origin/" ++ ref) with _ | h'
      · exact ⟨[], rfl⟩
      · exact ⟨[.checkout h' true], by simp [GRepo.checkoutHash, GRepo.log]⟩
    · exact ⟨[.checkout h true], by simp [GRepo.checkoutHash, GRepo.log]⟩
  · rw [hcc, hpr]
    rcases h1 : r.resolveRevision ref with _ | h
    · rcases h2 : r.resolveRevision ("refs/remotes/origin/" ++ ref) with _ | h'
      · exact ⟨"reference not found", rfl⟩
      · rfl
    · rfl
  · rw [hcc, hpr]
    rcases h1 : r.resolveRevision ref with _ | h
    · rcases h2 : r.resolveRevision ("refs/remotes/origin/" ++ ref) with _ | h'
      · intro hnone
        simp at hnone
      · intro _
        exact ⟨h', rfl, by simp [GRepo.checkoutHash, GRepo.log]⟩
    · intro _
      exact ⟨h, rfl, by simp [GRepo.checkoutHash, GRepo.log]⟩

/-- C5 witness: checking out `master` on the normalized fixture
repository. -/
theorem c5_checkout_resolution_witness :
    ∃ t, ((checkoutContext masterCloneNormalized "master").1).trace =
      masterCloneNormalized.trace ++ GEvent.fetch :: t :=
  (c5_checkout_resolution masterCloneNormalized "master" rfl).1

/-- `oOr` succeeds exactly when one of its branches does. -/
theorem isSome_oOr (a : Option (List Char × Caps)) (b : Unit → Option (List Char × Caps)) :
    (oOr a b).isSome = true ↔ a.isSome = true ∨ (b ()).isSome = true := by
  cases a <;> simp [oOr]

/-- The greedy star can always fall back to its continuation. -/
theorem manyG_of_k (cl : Char → Bool) (l : List Char) (caps : Caps) (k : MK)
    (h : (k l caps).isSome = true) : (manyG cl l caps k).isSome = true := by
  cases l with
  | nil => exact h
  | cons c rest =>
    by_cases hc : cl c
    · simp only [manyG, hc, if_true]
      exact (isSome_oOr _ _).mpr (Or.inr h)
    · simpa [manyG, hc] using h

/-- A boolean prefix stays a prefix after appending on the right. -/
theorem isPrefixOf_append_ext (s : List Char) :
    ∀ (l q : List Char), s.isPrefixOf l = true → s.isPrefixOf (l ++ q) = true := by
  induction s with
  | nil => intro l q _; simp [List.isPrefixOf]
  | cons c cs ih =>
    intro l q h
    cases l with
    | nil => simp [List.isPrefixOf] at h
    | cons d ds =>
      simp only [List.isPrefixOf, List.cons_append, Bool.and_eq_true] at h ⊢
      exact ⟨h.1, ih ds q h.2⟩

/-- A boolean prefix is no longer than the list. -/
theorem isPrefixOf_length_le (s : List Char) :
    ∀ l : List Char, s.isPrefixOf l = true → s.length ≤ l.length := by
  induction s with
  | nil => intro l _; simp
  | cons c cs ih =>
    intro l h
    cases l with
    | nil => simp [List.isPrefixOf] at h
    | cons d ds =>
      simp only [List.isPrefixOf, Bool.and_eq_true] at h
      simpa [List.length_cons] using Nat.succ_le_succ (ih ds h.2)

/-- Appending input on the right preserves success of the greedy star. -/
theorem manyG_ext (q : List Char) (cl : Char → Bool) :
    ∀ (inp : List Char) (caps : Caps) (k k' : MK), KExt q k k' →
      (manyG cl inp caps k).isSome = true →
      (manyG cl (inp ++ q) caps k').isSome = true := by
  intro inp
  induction inp with
  | nil =>
    intro caps k k' hk h
    exact manyG_of_k cl q caps k' (hk [] caps h)
  | cons c rest ih =>
    intro caps k k' hk h
    by_cases hc : cl c
    · simp only [manyG, hc, if_true, List.cons_append] at h ⊢
      rcases (isSome_oOr _ _).mp h with h1 | h2
      · exact (isSome_oOr _ _).mpr (Or.inl (ih caps k k' hk h1))
      · exact (isSome_oOr _ _).mpr (Or.inr (hk (c :: rest) caps h2))
    · simp only [manyG, hc, if_false, List.cons_append] at h ⊢
      exact hk (c :: rest) caps h

/-- The lazy star can always stop at its continuation. -/
theorem manyL_of_k (cl : Char → Bool) (l : List Char) (caps : Caps) (k : MK)
    (h : (k l caps).isSome = true) : (manyL cl l caps k).isSome = true := by
  cases l with
  | nil => exact h
  | cons c rest =>
    simp only [manyL]
    exact (isSome_oOr _ _).mpr (Or.inl h)

/-- Appending input on the right preserves success of the lazy star. -/
theorem manyL_ext (q : List Char) (cl : Char → Bool) :
    ∀ (inp : List Char) (caps : Caps) (k k' : MK), KExt q k k' →
      (manyL cl inp caps k).isSome = true →
      (manyL cl (inp ++ q) caps k').isSome = true := by
  intro inp
  induction inp with
  | nil =>
    intro caps k k' hk h
    exact manyL_of_k cl q caps k' (hk [] caps h)
  | cons c rest ih =>
    intro caps k k' hk h
    simp only [manyL, List.cons_append] at h ⊢
    rcases (isSome_oOr _ _).mp h with h1 | h2
    · exact (isSome_oOr _ _).mpr (Or.inl (hk (c :: rest) caps h1))
    · refine (isSome_oOr _ _).mpr (Or.inr ?_)
      by_cases hc : cl c
      · simp only [hc, if_true] at h2 ⊢
        exact ih caps k k' hk h2
      · simp [hc] at h2

/-- Appending input on the right preserves success of the matcher, for
any continuation transport: a successful parse of a prefix of `inp`
stays successful on `inp ++ q`. -/
theorem run_ext (q : List Char) :
    ∀ (e : Re) (inp : List Char) (caps : Caps) (k k' : MK), KExt q k k' →
      (run e inp caps k).isSome = true →
      (run e (inp ++ q) caps k').isSome = true := by
  intro e
  induction e with
  | eps =>
    intro inp caps k k' hk h
    exact hk inp caps h
  | lit s =>
    intro inp caps k k' hk h
    simp only [run] at h ⊢
    by_cases hp : s.isPrefixOf inp
    · rw [if_pos hp] at h
      rw [if_pos (isPrefixOf_append_ext s inp q hp)]
      have hdrop : (inp ++ q).drop s.length = inp.drop s.length ++ q := by
        rw [List.drop_append_eq_append_drop,
          Nat.sub_eq_zero_of_le (isPrefixOf_length_le s inp hp), List.drop_zero]
      rw [hdrop]
      exact hk _ caps h
    · rw [if_neg hp] at h
      simp at h
  | cls cl =>
    intro inp caps k k' hk h
    cases inp with
    | nil => simp [run] at h
    | cons c rest =>
      simp only [run, List.cons_append] at h ⊢
      by_cases hc : cl c
      · rw [if_pos hc] at h ⊢
        exact hk rest caps h
      · rw [if_neg hc] at h
        simp at h
  | seq a b iha ihb =>
    intro inp caps k k' hk h
    simp only [run] at h ⊢
    refine iha inp caps _ _ ?_ h
    intro rem caps2 hrem
    exact ihb rem caps2 _ _ hk hrem
  | alt a b iha ihb =>
    intro inp caps k k' hk h
    simp only [run] at h ⊢
    rcases (isSome_oOr _ _).mp h with h1 | h2
    · exact (isSome_oOr _ _).mpr (Or.inl (iha inp caps k k' hk h1))
    · exact (isSome_oOr _ _).mpr (Or.inr (ihb inp caps k k' hk h2))
  | opt a iha =>
    intro inp caps k k' hk h
    simp only [run] at h ⊢
    rcases (isSome_oOr _ _).mp h with h1 | h2
    · exact (isSome_oOr _ _).mpr (Or.inl (iha inp caps k k' hk h1))
    · exact (isSome_oOr _ _).mpr (Or.inr (hk inp caps h2))
  | many1G cl =>
    intro inp caps k k' hk h
    cases inp with
    | nil => simp [run] at h
    | cons c rest =>
      simp only [run, List.cons_append] at h ⊢
      by_cases hc : cl c
      · rw [if_pos hc] at h ⊢
        exact manyG_ext q cl rest caps k k' hk h
      · rw [if_neg hc] at h
        simp at h
  | many1L cl =>
    intro inp caps k k' hk h
    cases inp with
    | nil => simp [run] at h
    | cons c rest =>
      simp only [run, List.cons_append] at h ⊢
      by_cases hc : cl c
      · rw [if_pos hc] at h ⊢
        exact manyL_ext q cl rest caps k k' hk h
      · rw [if_neg hc] at h
        simp at h
  | group n a iha =>
    intro inp caps k k' hk h
    simp only [run] at h ⊢
    refine iha inp caps _ _ ?_ h
    intro rem caps2 hrem
    have harith : (inp ++ q).length - (rem ++ q).length = inp.length - rem.length := by
      simp only [List.length_append]
      omega
    have htake : (inp ++ q).take (inp.length - rem.length) =
        inp.take (inp.length - rem.length) := by
      rw [List.take_append_eq_append_take,
        Nat.sub_eq_zero_of_le (Nat.sub_le inp.length rem.length), List.take_zero,
        List.append_nil]
    have hrem' : (k rem (caps2.set n (List.take (inp.length - rem.length) inp))).isSome =
        true := hrem
    show (k' (rem ++ q)
      (caps2.set n (List.take ((inp ++ q).length - (rem ++ q).length) (inp ++ q)))).isSome = true
    rw [harith, htake]
    exact hk rem _ hrem'

/-- An anchored match survives appending input on the right. -/
theorem findAt_ext (q : List Char) (e : Re) (inp : List Char)
    (h : (findAt e inp).isSome = true) : (findAt e (inp ++ q)).isSome = true := by
  unfold findAt at h ⊢
  exact run_ext q e inp Caps.empty _ _ (fun rem caps2 _ => rfl) h

/-- An anchored match gives an unanchored one. -/
theorem findSub_of_findAt (e : Re) (l : List Char)
    (h : (findAt e l).isSome = true) : (findSub e l).isSome = true := by
  cases l with
  | nil =>
    simp only [findSub]
    rcases hf : findAt e [] with _ | ⟨rem, caps⟩
    · rw [hf] at h
      simp at h
    · rfl
  | cons c rest =>
    simp only [findSub]
    rcases hf : findAt e (c :: rest) with _ | ⟨rem, caps⟩
    · rw [hf] at h
      simp at h
    · rfl

/-- An unanchored match survives prepending one character. -/
theorem findSub_cons (e : Re) (c : Char) (l : List Char)
    (h : (findSub e l).isSome = true) : (findSub e (c :: l)).isSome = true := by
  simp only [findSub]
  rcases hf : findAt e (c :: l) with _ | ⟨rem, caps⟩
  · simpa using h
  · rfl

/-- An unanchored match survives appending input on the right. -/
theorem findSub_append_right (q : List Char) (e : Re) :
    ∀ inp : List Char, (findSub e inp).isSome = true →
      (findSub e (inp ++ q)).isSome = true := by
  intro inp
  induction inp with
  | nil =>
    intro h
    have hat : (findAt e []).isSome = true := by
      simp only [findSub] at h
      rcases hf : findAt e [] with _ | p
      · rw [hf] at h
        simp at h
      · rfl
    have hat' := findAt_ext q e [] hat
    simp only [List.nil_append] at hat' ⊢
    exact findSub_of_findAt e q hat'
  | cons c rest ih =>
    intro h
    simp only [findSub] at h
    rcases hf : findAt e (c :: rest) with _ | p
    · rw [hf] at h
      simp only [List.cons_append]
      exact findSub_cons e c (rest ++ q) (ih h)
    · have hat' := findAt_ext q e (c :: rest) (by rw [hf]; rfl)
      simp only [List.cons_append] at hat' ⊢
      exact findSub_of_findAt e (c :: (rest ++ q)) hat'

/-- An unanchored match survives prepending input on the left. -/
theorem findSub_append_left (e : Re) :
    ∀ (p inp : List Char), (findSub e inp).isSome = true →
      (findSub e (p ++ inp)).isSome = true := by
  intro p
  induction p with
  | nil =>
    intro inp h
    simpa using h
  | cons c cs ih =>
    intro inp h
    simpa only [List.cons_append] using findSub_cons e c (cs ++ inp) (ih inp h)

/-- C10.  `validGitURL` matches the pattern unanchored (`MatchString`),
so acceptance is monotone under extension on both sides: any string
containing an accepted fragment is accepted. -/
theorem c10_validGitURL_monotone (s p q : String)
    (h : validGitURL s = true) : validGitURL (p ++ s ++ q) = true := by
  unfold validGitURL at h ⊢
  have h1 : (findSub gitRe (s.toList ++ q.toList)).isSome = true :=
    findSub_append_right q.toList gitRe s.toList h
  have h2 : (findSub gitRe (p.toList ++ (s.toList ++ q.toList))).isSome = true :=
    findSub_append_left gitRe p.toList (s.toList ++ q.toList) h1
  have hToList : (p ++ s ++ q).toList = p.toList ++ (s.toList ++ q.toList) := by
    simp [String.toList, String.data_append]
  rw [hToList]
  exact h2

/-- C10 witness: a valid bare scp-style locator stays valid inside a
larger string. -/
theorem c10_validGitURL_monotone_witness :
    validGitURL "host.xz:path/to/repo.git" = true ∧
    validGitURL ("xx " ++ "host.xz:path/to/repo.git" ++ " yy") = true :=
  ⟨by rfl, c10_validGitURL_monotone "host.xz:path/to/repo.git" "xx " " yy" (by rfl)⟩
